import Mathlib

/-!
Verification development for the freehand drawing engine of the Prof2Math
note editor (component `src/components/HandwrittenBlock.vue`).  Coordinates are
modelled as exact rationals (`ℚ`); the JavaScript numbers on the verified code
paths undergo only field arithmetic, `min`/`max` and comparisons, which the
rational model reflects faithfully.
-/

namespace Prof2Math

/-- Point in virtual coordinate space, `{x: number, y: number}` in the source. -/
structure Point where
  x : ℚ
  y : ℚ
deriving DecidableEq, Repr

/-- Default point used to model the non-null assertions (`p!`) on indexed
accesses whose indices are always in range. -/
def pZero : Point := ⟨0, 0⟩

/-- A stroke is an ordered list of points (`{x,y}[]` in the source). -/
abbrev Stroke := List Point

/-- Drawing tool, `type Tool = 'pencil' | 'eraser'` (HandwrittenBlock.vue line 42). -/
inductive Tool where
  | pencil
  | eraser
deriving DecidableEq, Repr

/-- Config constant `ERASER_RADIUS = 10` (HandwrittenBlock.vue line 47). -/
def ERASER_RADIUS : ℚ := 10

/-- Config constant `LINE_WIDTH = 3` (HandwrittenBlock.vue line 46). -/
def LINE_WIDTH : ℚ := 3

/-- The reactive state of one `HandwrittenBlock` drawing surface
(HandwrittenBlock.vue lines 28-43).  `backgroundImage = ""` models the falsy
initial data URL. -/
structure DState where
  strokes : List Stroke
  redoStack : List Stroke
  currentStroke : List Point
  backgroundImage : String
  bgImageWidth : ℚ
  bgImageHeight : ℚ
  scale : ℚ
  offset : Point
  isDrawing : Bool
  isPanning : Bool
  currentTool : Tool
deriving DecidableEq, Repr

/-- Top-left corner of `canvas.getBoundingClientRect()`: position of the canvas
in client (viewport) coordinates. -/
structure RectPos where
  left : ℚ
  top : ℚ
deriving DecidableEq, Repr

/-- Coordinate mapping `toVirtual` (HandwrittenBlock.vue lines 222-229):
`{ x: (clientX - rect.left - offset.x) / scale, y: (clientY - rect.top - offset.y) / scale }`.
The canvas element is assumed present (the source returns `{x:0,y:0}` when the
canvas ref is null). -/
def toVirtual (rect : RectPos) (scale : ℚ) (offset : Point) (clientX clientY : ℚ) : Point :=
  ⟨(clientX - rect.left - offset.x) / scale,
   (clientY - rect.top - offset.y) / scale⟩

/-- Coordinate mapping `toScreen` (HandwrittenBlock.vue lines 231-236):
`{ x: vx * scale + offset.x, y: vy * scale + offset.y }`.  Its output is in
canvas-local coordinates (it is fed to `ctx.moveTo`/`lineTo`); note that it
does not add the canvas rect offset that `toVirtual` subtracts. -/
def toScreen (scale : ℚ) (offset : Point) (vx vy : ℚ) : Point :=
  ⟨vx * scale + offset.x, vy * scale + offset.y⟩

/-- `Math.sign` on rationals. -/
def mathSign (q : ℚ) : ℚ :=
  if 0 < q then 1 else if q < 0 then -1 else 0

/-- Ctrl/meta wheel-zoom handler `handleWheel` (HandwrittenBlock.vue lines
473-501), zoom branch: clamp the new scale to `[0.1, 5]`, recompute the offset
so that the virtual point under the mouse stays fixed, and commit the new
scale.  `deltaY` is the wheel delta; the canvas rect is `rect`. -/
def handleWheel (st : DState) (rect : RectPos) (clientX clientY deltaY : ℚ) : DState :=
  let zoomIntensity : ℚ := 1/10
  let delta := -(mathSign deltaY) * zoomIntensity
  let newScale := min (max (1/10) (st.scale + delta)) 5
  let mouseX := clientX - rect.left
  let mouseY := clientY - rect.top
  let virtualX := (mouseX - st.offset.x) / st.scale
  let virtualY := (mouseY - st.offset.y) / st.scale
  { st with
      offset := ⟨mouseX - virtualX * newScale, mouseY - virtualY * newScale⟩,
      scale := newScale }

/-- Squared distance from point `p` to the segment `p1`-`p2`, clamped to the
segment: `getSqSegDist` (HandwrittenBlock.vue lines 388-397). -/
def getSqSegDist (p p1 p2 : Point) : ℚ :=
  let dx := p2.x - p1.x
  let dy := p2.y - p1.y
  let q : Point :=
    if dx ≠ 0 ∨ dy ≠ 0 then
      let t := ((p.x - p1.x) * dx + (p.y - p1.y) * dy) / (dx * dx + dy * dy)
      if 1 < t then p2
      else if 0 < t then ⟨p1.x + dx * t, p1.y + dy * t⟩
      else p1
    else p1
  (p.x - q.x) * (p.x - q.x) + (p.y - q.y) * (p.y - q.y)

/-- The per-stroke test inside `eraseAt` (HandwrittenBlock.vue lines 354-369):
`true` iff some consecutive point pair of the stroke is at squared distance
below `thresholdSq` from `p`.  The loop runs `i` from `0` to
`stroke.length - 2`; the `if (!p1 || !p2) continue` guard never fires since the
indices are in range (modelled by `getD`). -/
def strokeHit (p : Point) (thresholdSq : ℚ) (stroke : Stroke) : Bool :=
  (List.range (stroke.length - 1)).any fun i =>
    decide (getSqSegDist p (stroke.getD i pZero) (stroke.getD (i + 1) pZero) < thresholdSq)

/-- Eraser `eraseAt` (HandwrittenBlock.vue lines 348-374): keep exactly the
strokes with no segment within `ERASER_RADIUS / scale` of the query point `p`
(the query point is already in virtual space). -/
def eraseAt (st : DState) (p : Point) : DState :=
  let threshold := ERASER_RADIUS / st.scale
  let thresholdSq := threshold * threshold
  { st with strokes := st.strokes.filter fun stroke => ! strokeHit p thresholdSq stroke }

/-- Specification-level predicate: stroke `s` has at least one segment
(consecutive point pair) whose point-to-segment squared distance from `p` is
below `rSq`. -/
def hasSegmentWithin (p : Point) (rSq : ℚ) (s : Stroke) : Prop :=
  ∃ i, i + 1 < s.length ∧ getSqSegDist p (s.getD i pZero) (s.getD (i + 1) pZero) < rSq

instance (p : Point) (rSq : ℚ) (s : Stroke) : Decidable (hasSegmentWithin p rSq s) :=
  decidable_of_iff (strokeHit p rSq s = true) (by
    unfold strokeHit hasSegmentWithin
    rw [List.any_eq_true]
    constructor
    · rintro ⟨i, hi, hd⟩
      exact ⟨i, by have := List.mem_range.mp hi; omega, of_decide_eq_true hd⟩
    · rintro ⟨i, hi, hd⟩
      exact ⟨i, List.mem_range.mpr (by omega), decide_eq_true hd⟩)

/-- Undo (HandwrittenBlock.vue lines 69-76): pop the most recent stroke from
`strokes` onto `redoStack`; no-op when `strokes` is empty.  `pop()` is
modelled by `getLast?`/`dropLast`; the popped array is always truthy, so the
push to `redoStack` always happens. -/
def undo (st : DState) : DState :=
  if st.strokes.length = 0 then st
  else
    match st.strokes.getLast? with
    | some lastStroke =>
        { st with strokes := st.strokes.dropLast, redoStack := st.redoStack ++ [lastStroke] }
    | none => { st with strokes := st.strokes.dropLast }

/-- Redo (HandwrittenBlock.vue lines 78-85): pop the most recent entry from
`redoStack` back onto `strokes`; no-op when `redoStack` is empty. -/
def redo (st : DState) : DState :=
  if st.redoStack.length = 0 then st
  else
    match st.redoStack.getLast? with
    | some nextStroke =>
        { st with redoStack := st.redoStack.dropLast, strokes := st.strokes ++ [nextStroke] }
    | none => { st with redoStack := st.redoStack.dropLast }

/-- Linear scan with a running maximum: the candidate `c` replaces the current
best exactly when its score strictly exceeds the running maximum `cur`
(initially the square tolerance, with no best candidate).  This is the shape of
the `for` loop inside `simplifyDP` (HandwrittenBlock.vue lines 405-415), which
tracks `index`/`maxSqDist` in exactly this way. -/
def scanMax {α : Type} (s : α → ℚ) : List α → Option α → ℚ → Option α
  | [], best, _ => best
  | c :: rest, best, cur =>
      if cur < s c then scanMax s rest (some c) (s c)
      else scanMax s rest best cur

/-- The index search of `simplifyDP` (HandwrittenBlock.vue lines 405-415):
scan `i` from `first + 1` to `last - 1`, keeping the first index whose squared
segment distance to the chord `points[first]`-`points[last]` attains the
maximum, provided that maximum exceeds `sqTol` (`index = -1`, i.e. `none`,
otherwise). -/
def findFarthest (points : List Point) (sqTol : ℚ) (first last : Nat) : Option Nat :=
  scanMax
    (fun i => getSqSegDist (points.getD i pZero) (points.getD first pZero) (points.getD last pZero))
    (List.range' (first + 1) (last - (first + 1))) none sqTol

/-- Recursive core of the Ramer-Douglas-Peucker simplifier, `simplifyDP`
(HandwrittenBlock.vue lines 404-422).  The JavaScript pushes kept points into
the `out` array in order: left half first, then the split point, then the
right half; the returned list is exactly that pushed sequence. -/
def simplifyDP (points : List Point) (sqTol : ℚ) (first last : Nat) : List Point :=
  match h : findFarthest points sqTol first last with
  | none => []
  | some index =>
      simplifyDP points sqTol first index
        ++ points.getD index pZero :: simplifyDP points sqTol index last
termination_by last - first
decreasing_by
  · have hmem : ∀ (l : List Nat) (b : Option Nat) (cur : ℚ) (c : Nat),
        scanMax (fun i => getSqSegDist (points.getD i pZero) (points.getD first pZero)
          (points.getD last pZero)) l b cur = some c → c ∈ l ∨ b = some c := by
      intro l
      induction l with
      | nil => intro b cur c hc; exact Or.inr hc
      | cons a rest ih =>
          intro b cur c hc
          simp only [scanMax] at hc
          split at hc
          · rcases ih _ _ _ hc with h1 | h1
            · exact Or.inl (List.mem_cons_of_mem _ h1)
            · exact Or.inl (by simp [Option.some_inj.mp h1])
          · rcases ih _ _ _ hc with h1 | h1
            · exact Or.inl (List.mem_cons_of_mem _ h1)
            · exact Or.inr h1
    rcases hmem _ _ _ _ h with hin | hnone
    · have := List.mem_range'.mp hin
      omega
    · exact absurd hnone (by simp)
  · have hmem : ∀ (l : List Nat) (b : Option Nat) (cur : ℚ) (c : Nat),
        scanMax (fun i => getSqSegDist (points.getD i pZero) (points.getD first pZero)
          (points.getD last pZero)) l b cur = some c → c ∈ l ∨ b = some c := by
      intro l
      induction l with
      | nil => intro b cur c hc; exact Or.inr hc
      | cons a rest ih =>
          intro b cur c hc
          simp only [scanMax] at hc
          split at hc
          · rcases ih _ _ _ hc with h1 | h1
            · exact Or.inl (List.mem_cons_of_mem _ h1)
            · exact Or.inl (by simp [Option.some_inj.mp h1])
          · rcases ih _ _ _ hc with h1 | h1
            · exact Or.inl (List.mem_cons_of_mem _ h1)
            · exact Or.inr h1
    rcases hmem _ _ _ _ h with hin | hnone
    · have := List.mem_range'.mp hin
      omega
    · exact absurd hnone (by simp)

/-- Ramer-Douglas-Peucker `simplify` (HandwrittenBlock.vue lines 400-434).
Sequences shorter than 3 points are returned unchanged.  The JavaScript guard
`lastPoint !== firstPoint` compares object references; `points[0]` and
`points[points.length - 1]` are distinct objects whenever `points.length ≥ 3`
(each captured point is a fresh object), so the final push always happens. -/
def simplify (points : List Point) (tolerance : ℚ) : List Point :=
  if points.length < 3 then points
  else
    let sqTolerance := tolerance * tolerance
    match points.head? with
    | none => points
    | some firstPoint =>
        (firstPoint :: simplifyDP points sqTolerance 0 (points.length - 1))
          ++ [points.getLastD pZero]

/-- `smoothStroke` (HandwrittenBlock.vue lines 376-385): RDP with tolerance
`0.5`; sequences shorter than 3 points are returned as-is. -/
def smoothStroke (points : List Point) : List Point :=
  if points.length < 3 then points
  else simplify points (1/2)

/-- Gesture commit `stopDrawing` (HandwrittenBlock.vue lines 330-346): end a
pan if panning, otherwise commit the current stroke (smoothed) to `strokes`
when the pencil tool is active and the buffer is non-empty, and clear the
buffer. -/
def stopDrawing (st : DState) : DState :=
  if st.isPanning then { st with isPanning := false }
  else if ! st.isDrawing then st
  else
    let st1 : DState := { st with isDrawing := false }
    let st2 : DState :=
      if st1.currentTool = Tool.pencil ∧ 0 < st1.currentStroke.length then
        { st1 with strokes := st1.strokes ++ [smoothStroke st1.currentStroke] }
      else st1
    { st2 with currentStroke := [] }

/-- JSON value, the result type of `JSON.parse` (JSON has no `undefined`). -/
inductive JsonVal where
  | null : JsonVal
  | bool : Bool → JsonVal
  | num : ℚ → JsonVal
  | str : String → JsonVal
  | arr : List JsonVal → JsonVal
  | obj : List (String × JsonVal) → JsonVal
deriving Repr

/-- Value-level model of `JSON.stringify(strokes.value)` (HandwrittenBlock.vue
line 546) composed with `JSON.parse` on reload: `JSON.stringify` prints every
finite number so that `JSON.parse` recovers it exactly, and the `&quot;`
escaping into the `<desc>` element is undone by the XML parser, so the encoding
round-trips to exactly this value. -/
def strokesToJson (ss : List Stroke) : JsonVal :=
  .arr (ss.map fun s => .arr (s.map fun p => .obj [("x", .num p.x), ("y", .num p.y)]))

/-- Typed reading of a JSON point `{"x": …, "y": …}`, the shape produced by
serialization; anything else is not a point. -/
def jsonDecodePoint : JsonVal → Option Point
  | .obj [("x", .num x), ("y", .num y)] => some ⟨x, y⟩
  | _ => none

/-- Typed reading of an array of JSON points. -/
def jsonDecodePoints : List JsonVal → Option (List Point)
  | [] => some []
  | v :: rest =>
      match jsonDecodePoint v, jsonDecodePoints rest with
      | some p, some ps => some (p :: ps)
      | _, _ => none

/-- Typed reading of a JSON stroke (array of points). -/
def jsonDecodeStroke : JsonVal → Option Stroke
  | .arr ps => jsonDecodePoints ps
  | _ => none

/-- Typed reading of a list of JSON strokes. -/
def jsonDecodeStrokeList : List JsonVal → Option (List Stroke)
  | [] => some []
  | v :: rest =>
      match jsonDecodeStroke v, jsonDecodeStrokeList rest with
      | some s, some ss => some (s :: ss)
      | _, _ => none

/-- Typed reading of the machine-readable stroke encoding: the stroke list the
TypeScript type `{x: number, y: number}[][]` promises for `strokes.value`. -/
def jsonDecodeStrokes : JsonVal → Option (List Stroke)
  | .arr ss => jsonDecodeStrokeList ss
  | _ => none

/-- The `<image>` element of the serialized SVG (HandwrittenBlock.vue line
555).  `x`/`y` are `Option ℚ`: `none` models a non-finite JavaScript number
(possible only in degenerate states with no points and a zero-sized
background). -/
structure SvgImage where
  href : String
  x : Option ℚ
  y : Option ℚ
  width : ℚ
  height : ℚ
deriving Repr

/-- Value-level content of the SVG artifact emitted by `generateSvg`
(HandwrittenBlock.vue lines 553-558): intrinsic width/height, optional
background image, the machine-readable `<desc>` stroke encoding, and the
redundant `<path>` polyline (one translated point list per drawn stroke).
`width`/`height` are `Option ℚ` with `none` modelling a non-finite JavaScript
number (arising from the `Infinity` bounding-box seed only when there are no
points and no sized background). -/
structure SvgArtifact where
  width : Option ℚ
  height : Option ℚ
  image : Option SvgImage
  desc : JsonVal
  path : List (List Point)
deriving Repr

/-- Serializer `generateSvg` (HandwrittenBlock.vue lines 504-561): returns
`none` (JavaScript `null`) when there are no strokes (committed or current)
and no background; otherwise computes the bounding box of background and all
stroke points, pads it by 20, and emits the artifact.  The `<desc>` encoding
is `JSON.stringify(strokes.value)` - committed strokes only, untranslated.
The bounding-box fold models the `Infinity`/`-Infinity` seeds by an `Option`
accumulator (`none` = still at the seeds). -/
def generateSvg (st : DState) : Option SvgArtifact :=
  let allStrokes := st.strokes ++ (if 0 < st.currentStroke.length then [st.currentStroke] else [])
  if allStrokes.length = 0 ∧ st.backgroundImage = "" then none
  else
    let seed : Option (ℚ × ℚ × ℚ × ℚ) :=
      if st.backgroundImage ≠ "" ∧ 0 < st.bgImageWidth ∧ 0 < st.bgImageHeight then
        some (0, 0, st.bgImageWidth, st.bgImageHeight)
      else none
    let box := allStrokes.foldl (fun b s => s.foldl (fun b p =>
        some (match b with
          | none => (p.x, p.y, p.x, p.y)
          | some (mnx, mny, mxx, mxy) =>
              (min mnx p.x, min mny p.y, max mxx p.x, max mxy p.y))) b) seed
    match box with
    | some (mnx, mny, mxx, mxy) =>
        let padding : ℚ := 20
        let minX := mnx - padding
        let minY := mny - padding
        let maxX := mxx + padding
        let maxY := mxy + padding
        some { width := some (maxX - minX), height := some (maxY - minY),
               image :=
                 if st.backgroundImage ≠ "" then
                   some { href := st.backgroundImage, x := some (0 - minX), y := some (0 - minY),
                          width := st.bgImageWidth, height := st.bgImageHeight }
                 else none,
               desc := strokesToJson st.strokes,
               path := allStrokes.filterMap fun s =>
                 if 2 ≤ s.length then some (s.map fun p => ⟨p.x - minX, p.y - minY⟩)
                 else none }
    | none =>
        -- no background seed and no stroke point at all: every JavaScript
        -- bounding-box value is non-finite, and no stroke has ≥ 2 points, so
        -- the path data is empty.
        some { width := none, height := none,
               image :=
                 if st.backgroundImage ≠ "" then
                   some { href := st.backgroundImage, x := none, y := none,
                          width := st.bgImageWidth, height := st.bgImageHeight }
                 else none,
               desc := strokesToJson st.strokes,
               path := [] }

/-- The state touched by `loadFromMarkdown`: the dynamic cell behind
`strokes.value` (a `JsonVal`, because the load path assigns the raw
`JSON.parse` result without validation) and the background fields.  Initially
`strokes.value = []` and the background is empty. -/
structure LoadState where
  strokesCell : JsonVal
  backgroundImage : String
  bgImageWidth : ℚ
  bgImageHeight : ℚ
deriving Repr

/-- The initial (empty) load state. -/
def initialLoadState : LoadState := { strokesCell := .arr [], backgroundImage := "", bgImageWidth := 0, bgImageHeight := 0 }

/-- Result of `doc.querySelector('image')` attribute reads
(HandwrittenBlock.vue lines 648-657): `href` is `none` when both `href` and
`xlink:href` are absent or empty (falsy), and width/height are the
`parseFloat` of the attributes (defaulting to 0). -/
structure ImageTag where
  href : Option String
  width : ℚ
  height : ℚ
deriving Repr

/-- Outcome of `DOMParser.parseFromString` plus `JSON.parse` on the `<desc>`
text (HandwrittenBlock.vue lines 638-644).  `DOMParser` never throws; `desc =
none` models a missing `<desc>` element or empty `textContent` (also the case
for malformed markup, which yields a parsererror document), `some (.error ())`
models `JSON.parse` throwing on the desc text, and `some (.ok v)` a successful
parse to the JSON value `v`. -/
structure ParsedSvg where
  desc : Option (Except Unit JsonVal)
  image : Option ImageTag

/-- Input cases of `loadFromMarkdown` (HandwrittenBlock.vue lines 618-662):
no image reference in the markdown (or missing root handle / file path, lines
620-626), an asset read that throws (lines 632-634), or a parsed document. -/
inductive LoadInput where
  | noRef : LoadInput
  | readFailure : LoadInput
  | doc : ParsedSvg → LoadInput

/-- Whether `drawStroke` (HandwrittenBlock.vue lines 437-448) throws a
`TypeError` when handed the (possibly non-stroke) JSON value `s`:
an array of length ≥ 2 throws iff it contains `null` (property access `.x` on
`null` throws; on any other JSON value it yields `undefined` or a value, and
`moveTo`/`lineTo` accept any number including `NaN`); `stroke.length < 2` is
false for non-arrays (`undefined < 2` is `false`), so a number/boolean tries
`stroke[0].x` and throws, `null.length` itself throws, an object throws
unless it has a `"0"` property that is not `null` (then the `for` loop bound
`i < undefined` is false and nothing more is accessed), and a string never
throws (its elements are 1-character strings whose `.x` is `undefined`). -/
def strokeDrawThrows : JsonVal → Bool
  | .arr pts => decide (2 ≤ pts.length) &&
      pts.any (fun p => match p with | .null => true | _ => false)
  | .str _ => false
  | .num _ => true
  | .bool _ => true
  | .null => true
  | .obj fields =>
      match fields.lookup "0" with
      | none => true
      | some .null => true
      | some _ => false

/-- Whether `drawAll` (HandwrittenBlock.vue lines 450-471) throws when
`strokes.value` holds the JSON value `v`: `for (const stroke of
strokes.value)` throws unless `v` is iterable (an array, or a string whose
character iteration draws nothing), and otherwise throws iff drawing some
element throws. -/
def drawAllThrows : JsonVal → Bool
  | .arr l => l.any strokeDrawThrows
  | .str _ => false
  | _ => true

/-- The `if (image) { … }` branch of `loadFromMarkdown` (HandwrittenBlock.vue
lines 648-658): assign the background fields only when an `href` is present
(truthy). -/
def applyImage (img : Option ImageTag) (st : LoadState) : LoadState :=
  match img with
  | none => st
  | some tag =>
      match tag.href with
      | none => st
      | some h => { st with backgroundImage := h, bgImageWidth := tag.width, bgImageHeight := tag.height }

/-- Deserializer `loadFromMarkdown` (HandwrittenBlock.vue lines 618-662).  All
failures are caught by the surrounding `try`/`catch` (logged, never
propagated), so the model is a total function on states.  When the desc text
parses, the raw JSON value is assigned to `strokes.value` and `drawAll()`
runs; if that throws, the error is caught and the image branch is skipped. -/
def loadFromMarkdown (inp : LoadInput) (st : LoadState) : LoadState :=
  match inp with
  | .noRef => st
  | .readFailure => st
  | .doc p =>
      match p.desc with
      | some (.error _) => st
      | some (.ok v) =>
          let st1 : LoadState := { st with strokesCell := v }
          if drawAllThrows v then st1
          else applyImage p.image st1
      | none => applyImage p.image st

/-- Reading the serialized artifact back through the browser parsers: the
`<desc>` text is the non-empty JSON serialization of the stroke list, which
`JSON.parse` recovers as exactly `a.desc`; the `<image>` element is present
iff the artifact has one, with its (non-empty) href. -/
def artifactToParsed (a : SvgArtifact) : ParsedSvg :=
  { desc := some (.ok a.desc),
    image := a.image.map fun i =>
      { href := if i.href = "" then none else some i.href,
        width := i.width, height := i.height } }

/-- All ways to split a list around one element: `splits l` lists the triples
`(pre, c, post)` with `l = pre ++ c :: post`, in order of the pivot position.
Proof infrastructure for relating the index-based `simplifyDP` to a
value-level recursion. -/
def splits {α : Type} : List α → List (List α × α × List α)
  | [] => []
  | p :: rest => ([], p, rest) :: (splits rest).map (fun c => (p :: c.1, c.2.1, c.2.2))

/-- Value-level analogue of the farthest-point search of `simplifyDP`: scan
the splits of the interior point list `mid` in order, keeping the first split
whose pivot attains the maximal squared distance to the chord `a`-`b`,
provided that maximum exceeds `sqTol`. -/
def rdpPick (sqTol : ℚ) (a b : Point) (mid : List Point) :
    Option (List Point × Point × List Point) :=
  scanMax (fun c => getSqSegDist c.2.1 a b) (splits mid) none sqTol

/-- Value-level recursion equivalent to `simplifyDP` (the equivalence is the
`simplifyDP_eq_rdpSeg` theorem below): kept interior points of the segment
with endpoints `a`, `b` and interior `mid`. -/
def rdpSeg (sqTol : ℚ) (a b : Point) (mid : List Point) : List Point :=
  match h : rdpPick sqTol a b mid with
  | none => []
  | some (pre, q, post) =>
      rdpSeg sqTol a q pre ++ q :: rdpSeg sqTol q b post
termination_by mid.length
decreasing_by
  all_goals
    have hmem : ∀ (l : List (List Point × Point × List Point))
        (b' : Option (List Point × Point × List Point)) (cur : ℚ)
        (c : List Point × Point × List Point),
        scanMax (fun c => getSqSegDist c.2.1 a b) l b' cur = some c → c ∈ l ∨ b' = some c := by
      intro l
      induction l with
      | nil => intro b' cur c hc; exact Or.inr hc
      | cons z rest ih =>
          intro b' cur c hc
          simp only [scanMax] at hc
          split at hc
          · rcases ih _ _ _ hc with h1 | h1
            · exact Or.inl (List.mem_cons_of_mem _ h1)
            · exact Or.inl (by simp [Option.some_inj.mp h1])
          · rcases ih _ _ _ hc with h1 | h1
            · exact Or.inl (List.mem_cons_of_mem _ h1)
            · exact Or.inr h1
  all_goals
    have hsp : ∀ (l : List Point) (c : List Point × Point × List Point),
        c ∈ splits l → l = c.1 ++ c.2.1 :: c.2.2 := by
      intro l
      induction l with
      | nil => intro c hc; simp [splits] at hc
      | cons p rest ih =>
          intro c hc
          simp only [splits, List.mem_cons] at hc
          rcases hc with hc | hc
          · simp [hc]
          · rcases List.mem_map.mp hc with ⟨d, hd, hdc⟩
            have := ih d hd
            subst hdc
            simp [this]
  all_goals
    rcases hmem _ _ _ _ h with hin | hnone
    case _ =>
      have hdec := hsp _ _ hin
      simp only [hdec, List.length_append, List.length_cons]
      omega
    case _ => exact absurd hnone (by simp)

/-! Concrete states used to instantiate the theorems below. -/

/-- An idle state with no strokes, no background, identity transform. -/
def emptyState : DState :=
  { strokes := [], redoStack := [], currentStroke := [], backgroundImage := "",
    bgImageWidth := 0, bgImageHeight := 0, scale := 1, offset := ⟨0, 0⟩,
    isDrawing := false, isPanning := false, currentTool := Tool.pencil }

/-- A state with one committed stroke `[(0,0),(1,2)]`. -/
def roundtripState : DState :=
  { emptyState with strokes := [[⟨0, 0⟩, ⟨1, 2⟩]] }

/-- A state with empty strokes but a non-empty redo buffer. -/
def redoOnlyState : DState :=
  { emptyState with redoStack := [[⟨0, 0⟩]] }

/-- A state with one committed stroke and empty redo buffer. -/
def oneStrokeState : DState :=
  { emptyState with strokes := [[⟨0, 0⟩]] }

/-- A state with two committed strokes, one passing through `(5,0)`, the other
far away. -/
def eraseState : DState :=
  { emptyState with strokes := [[⟨0, 0⟩, ⟨10, 0⟩], [⟨100, 100⟩, ⟨110, 100⟩]] }

/-- A state with a single committed 1-point stroke at the origin. -/
def tapState : DState :=
  { emptyState with strokes := [[⟨0, 0⟩]] }

/-- A mid-gesture state: pencil down with the raw 3-point collinear buffer
`(0,0),(5,0),(10,0)`, with arbitrary committed strokes and redo buffer. -/
def collinearGestureState (prev redoS : List Stroke) : DState :=
  { strokes := prev, redoStack := redoS, currentStroke := [⟨0, 0⟩, ⟨5, 0⟩, ⟨10, 0⟩],
    backgroundImage := "", bgImageWidth := 0, bgImageHeight := 0, scale := 1,
    offset := ⟨0, 0⟩, isDrawing := true, isPanning := false, currentTool := Tool.pencil }

/-! Lemmas about the scan `scanMax`. -/

theorem scanMax_mem {α : Type} (s : α → ℚ) :
    ∀ (l : List α) (b : Option α) (cur : ℚ) (c : α),
      scanMax s l b cur = some c → c ∈ l ∨ b = some c := by
  intro l
  induction l with
  | nil => intro b cur c hc; exact Or.inr hc
  | cons z rest ih =>
      intro b cur c hc
      simp only [scanMax] at hc
      split at hc
      · rcases ih _ _ _ hc with h1 | h1
        · exact Or.inl (List.mem_cons_of_mem _ h1)
        · exact Or.inl (by simp [Option.some_inj.mp h1])
      · rcases ih _ _ _ hc with h1 | h1
        · exact Or.inl (List.mem_cons_of_mem _ h1)
        · exact Or.inr h1

theorem scanMax_of_all_le {α : Type} (s : α → ℚ) :
    ∀ (l : List α) (b : Option α) (cur : ℚ),
      (∀ x ∈ l, s x ≤ cur) → scanMax s l b cur = b := by
  intro l
  induction l with
  | nil => intro b cur _; rfl
  | cons z rest ih =>
      intro b cur hall
      have hz : ¬ cur < s z := not_lt.mpr (hall z (List.mem_cons_self z rest))
      simp only [scanMax, if_neg hz]
      exact ih b cur (fun x hx => hall x (List.mem_cons_of_mem _ hx))

theorem scanMax_pickSpec {α : Type} (s : α → ℚ) :
    ∀ (l1 : List α) (l l2 : List α) (c : α) (b : Option α) (cur : ℚ),
      l = l1 ++ c :: l2 → cur < s c →
      (∀ x ∈ l1, s x < s c) → (∀ x ∈ l2, s x ≤ s c) →
      scanMax s l b cur = some c := by
  intro l1
  induction l1 with
  | nil =>
      intro l l2 c b cur hl hc _ hpost
      subst hl
      simp only [List.nil_append, scanMax, if_pos hc]
      exact scanMax_of_all_le s l2 (some c) (s c) hpost
  | cons z l1' ih =>
      intro l l2 c b cur hl hc hpre hpost
      subst hl
      have hz : s z < s c := hpre z (List.mem_cons_self z l1')
      have hpre' : ∀ x ∈ l1', s x < s c := fun x hx => hpre x (List.mem_cons_of_mem _ hx)
      by_cases hcz : cur < s z
      · simp only [List.cons_append, scanMax, if_pos hcz]
        exact ih _ l2 c (some z) (s z) rfl hz hpre' hpost
      · simp only [List.cons_append, scanMax, if_neg hcz]
        exact ih _ l2 c b cur rfl hc hpre' hpost

theorem scanMax_exists_pickSpec {α : Type} (s : α → ℚ) :
    ∀ (l : List α) (cur : ℚ), ¬ (∀ x ∈ l, s x ≤ cur) →
      ∃ l1 c l2, l = l1 ++ c :: l2 ∧ cur < s c ∧
        (∀ x ∈ l1, s x < s c) ∧ (∀ x ∈ l2, s x ≤ s c) := by
  intro l
  induction l with
  | nil => intro cur h; exact absurd (by simp) h
  | cons z rest ih =>
      intro cur h
      by_cases hz : cur < s z
      · by_cases hrest : ∀ x ∈ rest, s x ≤ s z
        · exact ⟨[], z, rest, rfl, hz, by simp, hrest⟩
        · rcases ih (s z) hrest with ⟨l1, c, l2, hl, hc, hpre, hpost⟩
          exact ⟨z :: l1, c, l2, by simp [hl], lt_trans hz hc,
            fun x hx => by
              rcases List.mem_cons.mp hx with hx | hx
              · subst hx; exact hc
              · exact hpre x hx,
            hpost⟩
      · have hzle : s z ≤ cur := not_lt.mp hz
        have hrest : ¬ ∀ x ∈ rest, s x ≤ cur := by
          intro hall
          exact h (fun x hx => by
            rcases List.mem_cons.mp hx with hx | hx
            · subst hx; exact hzle
            · exact hall x hx)
        rcases ih cur hrest with ⟨l1, c, l2, hl, hc, hpre, hpost⟩
        exact ⟨z :: l1, c, l2, by simp [hl], hc,
          fun x hx => by
            rcases List.mem_cons.mp hx with hx | hx
            · subst hx; exact lt_of_le_of_lt hzle hc
            · exact hpre x hx,
          hpost⟩

theorem scanMax_some_spec {α : Type} (s : α → ℚ) (l : List α) (cur : ℚ) (c : α)
    (h : scanMax s l none cur = some c) :
    ∃ l1 l2, l = l1 ++ c :: l2 ∧ cur < s c ∧
      (∀ x ∈ l1, s x < s c) ∧ (∀ x ∈ l2, s x ≤ s c) := by
  by_cases hall : ∀ x ∈ l, s x ≤ cur
  · rw [scanMax_of_all_le s l none cur hall] at h
    exact absurd h (by simp)
  · rcases scanMax_exists_pickSpec s l cur hall with ⟨l1, c', l2, hl, hc, hpre, hpost⟩
    have := scanMax_pickSpec s l1 l l2 c' none cur hl hc hpre hpost
    rw [this] at h
    rcases Option.some_inj.mp h with rfl
    exact ⟨l1, l2, hl, hc, hpre, hpost⟩

theorem scanMax_map {α β : Type} (s : α → ℚ) (t : β → ℚ) (g : α → β) :
    ∀ (l : List α) (b : Option α) (cur : ℚ),
      (∀ x ∈ l, t (g x) = s x) →
      scanMax t (l.map g) (b.map g) cur = (scanMax s l b cur).map g := by
  intro l
  induction l with
  | nil => intro b cur _; rfl
  | cons z rest ih =>
      intro b cur hagree
      have hz : t (g z) = s z := hagree z (List.mem_cons_self z rest)
      have hrest : ∀ x ∈ rest, t (g x) = s x := fun x hx => hagree x (List.mem_cons_of_mem _ hx)
      simp only [List.map_cons, scanMax, hz]
      by_cases hc : cur < s z
      · rw [if_pos hc, if_pos hc]
        have := ih (some z) (s z) hrest
        simpa using this
      · rw [if_neg hc, if_neg hc]
        exact ih b cur hrest

/-! Lemmas about `splits`. -/

theorem mem_splits {α : Type} :
    ∀ (l : List α) (c : List α × α × List α), c ∈ splits l → l = c.1 ++ c.2.1 :: c.2.2 := by
  intro l
  induction l with
  | nil => intro c hc; simp [splits] at hc
  | cons p rest ih =>
      intro c hc
      simp only [splits, List.mem_cons] at hc
      rcases hc with hc | hc
      · simp [hc]
      · rcases List.mem_map.mp hc with ⟨d, hd, hdc⟩
        have := ih d hd
        subst hdc
        simp [this]

theorem splits_pivots {α : Type} :
    ∀ (l : List α), (splits l).map (fun c => c.2.1) = l := by
  intro l
  induction l with
  | nil => rfl
  | cons p rest ih =>
      have h1 : (splits (p :: rest)).map (fun c => c.2.1)
          = p :: ((splits rest).map (fun c => (p :: c.1, c.2.1, c.2.2))).map (fun c => c.2.1) := rfl
      rw [h1, List.map_map]
      exact congrArg (fun t => p :: t) ih

theorem splits_decomp {α : Type} :
    ∀ (l : List α) (s1 s2 : List (List α × α × List α)) (c : List α × α × List α),
      splits l = s1 ++ c :: s2 →
      s1.map (fun d => d.2.1) = c.1 ∧ s2.map (fun d => d.2.1) = c.2.2 := by
  intro l
  induction l with
  | nil => intro s1 s2 c h; simp [splits] at h
  | cons p rest ih =>
      intro s1 s2 c h
      simp only [splits] at h
      cases s1 with
      | nil =>
          simp only [List.nil_append] at h
          rcases List.cons_eq_cons.mp h with ⟨hc, hs2⟩
          subst hc
          refine ⟨rfl, ?_⟩
          rw [← hs2, List.map_map]
          simpa [Function.comp] using splits_pivots rest
      | cons z s1' =>
          simp only [List.cons_append] at h
          rcases List.cons_eq_cons.mp h with ⟨hz, htail⟩
          rcases List.map_eq_append_iff.mp htail with ⟨m1, m2, hsplit, hm1, hm2⟩
          cases m2 with
          | nil => exact absurd hm2 (by simp)
          | cons d m2' =>
              simp only [List.map_cons] at hm2
              rcases List.cons_eq_cons.mp hm2 with ⟨hd, hm2'⟩
              have hrest := ih m1 m2' d (by rw [hsplit])
              subst hz
              constructor
              · rw [← hd, ← hm1, List.map_cons, List.map_map]
                exact congrArg (fun t => p :: t) hrest.1
              · rw [← hm2', ← hd, List.map_map]
                exact hrest.2

theorem splits_append_mid {α : Type} :
    ∀ (L : List α) (q : α) (R : List α),
      ∃ s1 s2, splits (L ++ q :: R) = s1 ++ (L, q, R) :: s2 ∧
        s1.map (fun d => d.2.1) = L ∧ s2.map (fun d => d.2.1) = R := by
  intro L
  induction L with
  | nil =>
      intro q R
      refine ⟨[], (splits R).map (fun c => (q :: c.1, c.2.1, c.2.2)), by simp [splits], rfl, ?_⟩
      rw [List.map_map]
      simpa [Function.comp] using splits_pivots R
  | cons p L' ih =>
      intro q R
      rcases ih q R with ⟨s1, s2, hsp, h1, h2⟩
      refine ⟨([], p, L' ++ q :: R) :: s1.map (fun c => (p :: c.1, c.2.1, c.2.2)),
        s2.map (fun c => (p :: c.1, c.2.1, c.2.2)), ?_, ?_, ?_⟩
      · have hunf : splits ((p :: L') ++ q :: R) = ([], p, L' ++ q :: R) ::
            (splits (L' ++ q :: R)).map (fun c => (p :: c.1, c.2.1, c.2.2)) := rfl
        rw [hunf, hsp, List.map_append, List.map_cons]
        rfl
      · rw [List.map_cons, List.map_map]
        exact congrArg (fun t => p :: t) h1
      · rw [List.map_map]
        exact h2

/-! Lemmas about `rdpSeg`. -/

theorem rdpSeg_eq_none {sqTol : ℚ} {a b : Point} {mid : List Point}
    (h : rdpPick sqTol a b mid = none) : rdpSeg sqTol a b mid = [] := by
  rw [rdpSeg]
  split
  · rfl
  · next pre' q' post' heq => rw [h] at heq; exact absurd heq (by simp)

theorem rdpSeg_eq_some {sqTol : ℚ} {a b : Point} {mid : List Point}
    {pre post : List Point} {q : Point}
    (h : rdpPick sqTol a b mid = some (pre, q, post)) :
    rdpSeg sqTol a b mid = rdpSeg sqTol a q pre ++ q :: rdpSeg sqTol q b post := by
  rw [rdpSeg]
  split
  · next heq => rw [h] at heq; exact absurd heq (by simp)
  · next pre' q' post' heq =>
      rw [h] at heq
      have h1 := Option.some_inj.mp heq
      have hp : pre = pre' := congrArg (fun c => c.1) h1
      have hq : q = q' := congrArg (fun c => c.2.1) h1
      have hpo : post = post' := congrArg (fun c => c.2.2) h1
      subst hp; subst hq; subst hpo
      rfl

theorem rdpPick_decomp {sqTol : ℚ} {a b : Point} {mid : List Point}
    {c : List Point × Point × List Point} (h : rdpPick sqTol a b mid = some c) :
    mid = c.1 ++ c.2.1 :: c.2.2 := by
  unfold rdpPick at h
  rcases scanMax_mem _ _ _ _ _ h with hin | hb
  · exact mem_splits mid c hin
  · exact absurd hb (by simp)

theorem rdpSeg_nil (sqTol : ℚ) (a b : Point) : rdpSeg sqTol a b [] = [] :=
  rdpSeg_eq_none rfl

theorem rdpSeg_subset (sqTol : ℚ) :
    ∀ (n : Nat) (mid : List Point), mid.length ≤ n → ∀ (a b : Point) (x : Point),
      x ∈ rdpSeg sqTol a b mid → x ∈ mid := by
  intro n
  induction n with
  | zero =>
      intro mid hlen a b x hx
      have : mid = [] := List.length_eq_zero.mp (Nat.le_zero.mp hlen)
      subst this
      rw [rdpSeg_nil] at hx
      exact absurd hx (by simp)
  | succ n ih =>
      intro mid hlen a b x hx
      cases hpick : rdpPick sqTol a b mid with
      | none => rw [rdpSeg_eq_none hpick] at hx; exact absurd hx (by simp)
      | some c =>
          obtain ⟨pre, q, post⟩ := c
          rw [rdpSeg_eq_some hpick] at hx
          have hdec : mid = pre ++ q :: post := rdpPick_decomp hpick
          have hlens : pre.length ≤ n ∧ post.length ≤ n := by
            have : mid.length = pre.length + (post.length + 1) := by
              rw [hdec]; simp
            omega
          rw [hdec]
          rcases List.mem_append.mp hx with hx | hx
          · exact List.mem_append_left _ (ih pre hlens.1 a q x hx)
          · rcases List.mem_cons.mp hx with hx | hx
            · exact List.mem_append_right _ (List.mem_cons.mpr (Or.inl hx))
            · exact List.mem_append_right _
                (List.mem_cons.mpr (Or.inr (ih post hlens.2 q b x hx)))

theorem rdpSeg_idem_aux (sqTol : ℚ) :
    ∀ (n : Nat) (mid : List Point), mid.length ≤ n → ∀ (a b : Point),
      rdpSeg sqTol a b (rdpSeg sqTol a b mid) = rdpSeg sqTol a b mid := by
  intro n
  induction n with
  | zero =>
      intro mid hlen a b
      have : mid = [] := List.length_eq_zero.mp (Nat.le_zero.mp hlen)
      subst this
      rw [rdpSeg_nil, rdpSeg_nil]
  | succ n ih =>
      intro mid hlen a b
      cases hpick : rdpPick sqTol a b mid with
      | none =>
          rw [rdpSeg_eq_none hpick, rdpSeg_nil]
      | some c =>
          obtain ⟨pre, q, post⟩ := c
          have hmid : rdpSeg sqTol a b mid
              = rdpSeg sqTol a q pre ++ q :: rdpSeg sqTol q b post :=
            rdpSeg_eq_some hpick
          have hdec : mid = pre ++ q :: post := rdpPick_decomp hpick
          have hlens : pre.length ≤ n ∧ post.length ≤ n := by
            have : mid.length = pre.length + (post.length + 1) := by
              rw [hdec]; simp
            omega
          -- value-level conditions from the original pick
          have hpick' : scanMax (fun c => getSqSegDist c.2.1 a b) (splits mid) none sqTol
              = some (pre, q, post) := hpick
          obtain ⟨S1, S2, hsplit, hlt, hpreS, hpostS⟩ :=
            scanMax_some_spec (fun c => getSqSegDist c.2.1 a b) (splits mid) sqTol
              (pre, q, post) hpick'
          have hmaps := splits_decomp mid S1 S2 (pre, q, post) hsplit
          have hm1 : S1.map (fun d => d.2.1) = pre := hmaps.1
          have hm2 : S2.map (fun d => d.2.1) = post := hmaps.2
          have hpreV : ∀ v ∈ pre, getSqSegDist v a b < getSqSegDist q a b := by
            intro v hv
            rw [← hm1] at hv
            rcases List.mem_map.mp hv with ⟨x, hx, rfl⟩
            exact hpreS x hx
          have hpostV : ∀ v ∈ post, getSqSegDist v a b ≤ getSqSegDist q a b := by
            intro v hv
            rw [← hm2] at hv
            rcases List.mem_map.mp hv with ⟨x, hx, rfl⟩
            exact hpostS x hx
          -- the rerun picks the same split point
          obtain ⟨T1, T2, hTsplit, hT1, hT2⟩ :=
            splits_append_mid (rdpSeg sqTol a q pre) q (rdpSeg sqTol q b post)
          have houtpick : rdpPick sqTol a b
              (rdpSeg sqTol a q pre ++ q :: rdpSeg sqTol q b post)
              = some (rdpSeg sqTol a q pre, q, rdpSeg sqTol q b post) := by
            unfold rdpPick
            apply scanMax_pickSpec (fun c => getSqSegDist c.2.1 a b) T1 _ T2 _ none sqTol
              hTsplit hlt
            · intro x hx
              have hxp : x.2.1 ∈ T1.map (fun d => d.2.1) := List.mem_map_of_mem _ hx
              rw [hT1] at hxp
              exact hpreV x.2.1 (rdpSeg_subset sqTol pre.length pre le_rfl a q x.2.1 hxp)
            · intro x hx
              have hxp : x.2.1 ∈ T2.map (fun d => d.2.1) := List.mem_map_of_mem _ hx
              rw [hT2] at hxp
              exact hpostV x.2.1 (rdpSeg_subset sqTol post.length post le_rfl q b x.2.1 hxp)
          rw [hmid, rdpSeg_eq_some houtpick]
          rw [ih pre hlens.1 a q, ih post hlens.2 q b]

theorem rdpSeg_idem (sqTol : ℚ) (a b : Point) (mid : List Point) :
    rdpSeg sqTol a b (rdpSeg sqTol a b mid) = rdpSeg sqTol a b mid :=
  rdpSeg_idem_aux sqTol mid.length mid le_rfl a b

/-! Bridge: the index-based `simplifyDP` computes `rdpSeg` on the interior
slice of the point list. -/

theorem simplifyDP_eq_none {points : List Point} {sqTol : ℚ} {first last : Nat}
    (h : findFarthest points sqTol first last = none) :
    simplifyDP points sqTol first last = [] := by
  rw [simplifyDP]
  split
  · rfl
  · next i heq => rw [h] at heq; exact absurd heq (by simp)

theorem simplifyDP_eq_some {points : List Point} {sqTol : ℚ} {first last i : Nat}
    (h : findFarthest points sqTol first last = some i) :
    simplifyDP points sqTol first last
      = simplifyDP points sqTol first i
          ++ points.getD i pZero :: simplifyDP points sqTol i last := by
  rw [simplifyDP]
  split
  · next heq => rw [h] at heq; exact absurd heq (by simp)
  · next i' heq =>
      rw [h] at heq
      have : i = i' := Option.some_inj.mp heq
      subst this
      rfl

theorem splits_eq_range_map {α : Type} (d : α) :
    ∀ (l : List α), splits l
      = (List.range l.length).map (fun k => (l.take k, l.getD k d, l.drop (k + 1))) := by
  intro l
  induction l with
  | nil => rfl
  | cons p rest ih =>
      have h0 : List.range (p :: rest).length = 0 :: (List.range rest.length).map Nat.succ :=
        List.range_succ_eq_map rest.length
      rw [show splits (p :: rest) = ([], p, rest) :: (splits rest).map
            (fun c => (p :: c.1, c.2.1, c.2.2)) from rfl,
          ih, h0, List.map_cons, List.map_map, List.map_map]
      rfl

theorem simplifyDP_eq_rdpSeg (sqTol : ℚ) :
    ∀ (k : Nat) (points : List Point) (first last : Nat),
      last - first ≤ k → first < last → last < points.length →
      simplifyDP points sqTol first last
        = rdpSeg sqTol (points.getD first pZero) (points.getD last pZero)
            ((points.drop (first + 1)).take (last - first - 1)) := by
  intro k
  induction k with
  | zero => intro points first last hk hfl _; omega
  | succ k ih =>
      intro points first last hk hfl hlen
      have hn : last - (first + 1) = last - first - 1 := by omega
      have hslicelen : ((points.drop (first + 1)).take (last - first - 1)).length
          = last - first - 1 := by
        simp only [List.length_take, List.length_drop]
        omega
      have hsliceget : ∀ kk, kk < last - first - 1 →
          ((points.drop (first + 1)).take (last - first - 1)).getD kk pZero
            = points.getD (first + 1 + kk) pZero := by
        intro kk hkk
        simp [List.getD_eq_getElem?_getD, List.getElem?_take, hkk, List.getElem?_drop]
      have hff : findFarthest points sqTol first last
          = (scanMax (fun kk => getSqSegDist (points.getD (first + 1 + kk) pZero)
              (points.getD first pZero) (points.getD last pZero))
              (List.range (last - first - 1)) none sqTol).map (fun kk => first + 1 + kk) := by
        unfold findFarthest
        rw [hn, List.range'_eq_map_range]
        exact scanMax_map _ _ _ _ none sqTol (fun x _ => rfl)
      have hrp : rdpPick sqTol (points.getD first pZero) (points.getD last pZero)
          ((points.drop (first + 1)).take (last - first - 1))
          = (scanMax (fun kk => getSqSegDist (points.getD (first + 1 + kk) pZero)
              (points.getD first pZero) (points.getD last pZero))
              (List.range (last - first - 1)) none sqTol).map
              (fun kk => (((points.drop (first + 1)).take (last - first - 1)).take kk,
                ((points.drop (first + 1)).take (last - first - 1)).getD kk pZero,
                ((points.drop (first + 1)).take (last - first - 1)).drop (kk + 1))) := by
        unfold rdpPick
        rw [splits_eq_range_map pZero, hslicelen]
        refine scanMax_map _ _ _ _ none sqTol ?_
        intro kk hkk
        have := hsliceget kk (List.mem_range.mp hkk)
        simp only [this]
      cases hbase : scanMax (fun kk => getSqSegDist (points.getD (first + 1 + kk) pZero)
          (points.getD first pZero) (points.getD last pZero))
          (List.range (last - first - 1)) none sqTol with
      | none =>
          rw [hbase] at hff hrp
          rw [simplifyDP_eq_none hff, rdpSeg_eq_none hrp]
      | some kk =>
          have hkk : kk < last - first - 1 := by
            rcases scanMax_mem _ _ _ _ _ hbase with hin | hb
            · exact List.mem_range.mp hin
            · exact absurd hb (by simp)
          rw [hbase] at hff hrp
          simp only [Option.map_some'] at hff hrp
          rw [simplifyDP_eq_some hff, rdpSeg_eq_some hrp]
          have hgd : ((points.drop (first + 1)).take (last - first - 1)).getD kk pZero
              = points.getD (first + 1 + kk) pZero := hsliceget kk hkk
          have htake : ((points.drop (first + 1)).take (last - first - 1)).take kk
              = (points.drop (first + 1)).take ((first + 1 + kk) - first - 1) := by
            have e : min kk (last - first - 1) = (first + 1 + kk) - first - 1 := by omega
            rw [List.take_take, e]
          have hdrop : ((points.drop (first + 1)).take (last - first - 1)).drop (kk + 1)
              = (points.drop ((first + 1 + kk) + 1)).take (last - (first + 1 + kk) - 1) := by
            have e1 : (first + 1) + (kk + 1) = (first + 1 + kk) + 1 := by omega
            have e2 : last - first - 1 - (kk + 1) = last - (first + 1 + kk) - 1 := by omega
            rw [List.drop_take (last - first - 1) (kk + 1), List.drop_drop, e1, e2]
          rw [hgd, htake, hdrop]
          rw [← ih points first (first + 1 + kk) (by omega) (by omega) (by omega)]
          rw [← ih points (first + 1 + kk) last (by omega) (by omega) (by omega)]

/-! Wrapper-level facts about `simplify`. -/

theorem head?_eq_getD (l : List Point) (h : l ≠ []) : l.head? = some (l.getD 0 pZero) := by
  cases l with
  | nil => exact absurd rfl h
  | cons a t => rfl

theorem getLast?_eq_getLastD (l : List Point) (h : l ≠ []) :
    l.getLast? = some (l.getLastD pZero) := by
  cases hl : l.getLast? with
  | none => exact absurd (List.getLast?_eq_none_iff.mp hl) h
  | some y => rw [List.getLastD_eq_getLast?, hl]; rfl

theorem simplify_shape (points : List Point) (t : ℚ) (h3 : 3 ≤ points.length) :
    simplify points t
      = (points.getD 0 pZero
          :: rdpSeg (t * t) (points.getD 0 pZero) (points.getD (points.length - 1) pZero)
               ((points.drop 1).take (points.length - 2)))
        ++ [points.getLastD pZero] := by
  unfold simplify
  rw [if_neg (by omega)]
  cases points with
  | nil => simp at h3
  | cons p rest =>
      simp only [List.head?_cons]
      have hb := simplifyDP_eq_rdpSeg (t * t) ((p :: rest).length) (p :: rest) 0
        ((p :: rest).length - 1) (by omega) (by omega) (by omega)
      rw [hb]
      have e : (p :: rest).length - 1 - 0 - 1 = (p :: rest).length - 2 := by omega
      rw [e]
      rfl

theorem simplify_of_lt3 (points : List Point) (t : ℚ) (h3 : points.length < 3) :
    simplify points t = points := by
  unfold simplify
  rw [if_pos h3]

theorem getD_last (l : List Point) (h : l ≠ []) :
    l.getD (l.length - 1) pZero = l.getLastD pZero := by
  rw [List.getD_eq_getElem?_getD, ← List.getLast?_eq_getElem?, List.getLastD_eq_getLast?]

/-- C8: applying `simplify` twice with the same tolerance yields the same
result as applying it once: the Ramer-Douglas-Peucker simplifier of
`HandwrittenBlock.vue` is idempotent, for every input point sequence and every
tolerance. -/
theorem simplify_idempotent (points : List Point) (t : ℚ) :
    simplify (simplify points t) t = simplify points t := by
  by_cases h3 : points.length < 3
  · have h := simplify_of_lt3 points t h3
    rw [h, h]
  · push_neg at h3
    have hne : points ≠ [] := by
      intro h; rw [h] at h3; simp at h3
    have hshape := simplify_shape points t h3
    set a := points.getD 0 pZero with ha
    set b := points.getD (points.length - 1) pZero with hb
    have hbl : b = points.getLastD pZero := by
      rw [hb]; exact getD_last points hne
    set mid := (points.drop 1).take (points.length - 2) with hmid
    set dp := rdpSeg (t * t) a b mid with hdp
    have hr : simplify points t = a :: (dp ++ [points.getLastD pZero]) := by
      rw [hshape]; rfl
    cases hdpcase : dp with
    | nil =>
        rw [hr, hdpcase]
        exact simplify_of_lt3 _ t (by simp)
    | cons d dp' =>
        rw [hr]
        have hlen : (a :: (dp ++ [points.getLastD pZero])).length = dp.length + 2 := by
          simp
        have h3' : 3 ≤ (a :: (dp ++ [points.getLastD pZero])).length := by
          rw [hlen, hdpcase]; simp
        rw [simplify_shape _ t h3']
        have hg0 : (a :: (dp ++ [points.getLastD pZero])).getD 0 pZero = a := rfl
        have hgl : (a :: (dp ++ [points.getLastD pZero])).getD
            ((a :: (dp ++ [points.getLastD pZero])).length - 1) pZero
              = points.getLastD pZero := by
          rw [hlen]
          have : (a :: (dp ++ [points.getLastD pZero])).getD (dp.length + 2 - 1) pZero
              = (dp ++ [points.getLastD pZero]).getD dp.length pZero := rfl
          rw [this, List.getD_eq_getElem?_getD, List.getElem?_append_right (le_refl _)]
          simp
        have hinner : ((a :: (dp ++ [points.getLastD pZero])).drop 1).take
            ((a :: (dp ++ [points.getLastD pZero])).length - 2) = dp := by
          rw [hlen]
          have : ((a :: (dp ++ [points.getLastD pZero])).drop 1) = dp ++ [points.getLastD pZero] := rfl
          rw [this]
          have e : dp.length + 2 - 2 = dp.length := by omega
          rw [e, List.take_left]
        have hlast : (a :: (dp ++ [points.getLastD pZero])).getLastD pZero
            = points.getLastD pZero := by
          have h1 : (a :: (dp ++ [points.getLastD pZero])).getLast? = some (points.getLastD pZero) := by
            rw [show a :: (dp ++ [points.getLastD pZero]) = (a :: dp) ++ [points.getLastD pZero] from rfl]
            exact List.getLast?_concat _
          have h2 := getLast?_eq_getLastD (a :: (dp ++ [points.getLastD pZero])) (by simp)
          rw [h1] at h2
          exact (Option.some_inj.mp h2).symm
        rw [hg0, hgl, hinner, hlast, ← hbl]
        rw [hdp, rdpSeg_idem]
        rfl

/-- C3: for any input sequence of at least 2 points, `simplify` preserves the
first and last points: `simplify(seq)[0] = seq[0]` and `simplify(seq)[last] =
seq[last]`. -/
theorem simplify_endpoints (points : List Point) (t : ℚ) (h2 : 2 ≤ points.length) :
    (simplify points t).head? = points.head?
      ∧ (simplify points t).getLast? = points.getLast? := by
  have hne : points ≠ [] := by
    intro h; rw [h] at h2; simp at h2
  by_cases h3 : points.length < 3
  · rw [simplify_of_lt3 points t h3]
    exact ⟨rfl, rfl⟩
  · push_neg at h3
    rw [simplify_shape points t h3]
    constructor
    · rw [head?_eq_getD points hne]
      rfl
    · rw [getLast?_eq_getLastD points hne]
      rw [show (points.getD 0 pZero
          :: rdpSeg (t * t) (points.getD 0 pZero) (points.getD (points.length - 1) pZero)
               ((points.drop 1).take (points.length - 2))) ++ [points.getLastD pZero]
          = (points.getD 0 pZero
          :: rdpSeg (t * t) (points.getD 0 pZero) (points.getD (points.length - 1) pZero)
               ((points.drop 1).take (points.length - 2))) ++ [points.getLastD pZero] from rfl]
      exact List.getLast?_concat _

/-- C3 witness: the 2-point sequence `[(0,0),(3,4)]` has its endpoints
preserved by `simplify` with tolerance 1. -/
theorem simplify_endpoints_witness :
    2 ≤ ([⟨0, 0⟩, ⟨3, 4⟩] : List Point).length
      ∧ (simplify [⟨0, 0⟩, ⟨3, 4⟩] 1).head? = ([⟨0, 0⟩, ⟨3, 4⟩] : List Point).head?
      ∧ (simplify [⟨0, 0⟩, ⟨3, 4⟩] 1).getLast? = ([⟨0, 0⟩, ⟨3, 4⟩] : List Point).getLast? :=
  ⟨by decide, simplify_endpoints [⟨0, 0⟩, ⟨3, 4⟩] 1 (by decide)⟩

/-! Codec lemmas. -/

theorem jsonDecodePoints_map (s : Stroke) :
    jsonDecodePoints (s.map fun p => .obj [("x", .num p.x), ("y", .num p.y)]) = some s := by
  induction s with
  | nil => rfl
  | cons p rest ih =>
      simp only [List.map_cons, jsonDecodePoints, jsonDecodePoint, ih]

theorem jsonDecodeStrokeList_map (ss : List Stroke) :
    jsonDecodeStrokeList (ss.map fun s => .arr (s.map fun p =>
      .obj [("x", .num p.x), ("y", .num p.y)])) = some ss := by
  induction ss with
  | nil => rfl
  | cons s rest ih =>
      simp only [List.map_cons, jsonDecodeStrokeList, jsonDecodeStroke,
        jsonDecodePoints_map, ih]

theorem jsonDecodeStrokes_strokesToJson (ss : List Stroke) :
    jsonDecodeStrokes (strokesToJson ss) = some ss := by
  unfold strokesToJson jsonDecodeStrokes
  exact jsonDecodeStrokeList_map ss

theorem applyImage_strokesCell (img : Option ImageTag) (st : LoadState) :
    (applyImage img st).strokesCell = st.strokesCell := by
  unfold applyImage
  rcases img with _ | ⟨_ | _, w, hh⟩ <;> rfl

theorem generateSvg_desc (st : DState) (a : SvgArtifact) (h : generateSvg st = some a) :
    a.desc = strokesToJson st.strokes := by
  unfold generateSvg at h
  simp only [ne_eq] at h
  repeat' split at h
  all_goals try (rcases Option.some_inj.mp h with rfl; rfl)
  all_goals exact absurd h (by simp)

theorem generateSvg_isSome (st : DState) (h : st.strokes ≠ []) :
    ∃ a, generateSvg st = some a := by
  unfold generateSvg
  simp only [ne_eq]
  repeat' split
  all_goals try exact ⟨_, rfl⟩
  all_goals
    rename_i hcond
    exfalso
    rcases hcond with ⟨hlen, _⟩
    exact h (by
      rcases List.append_eq_nil.mp (List.length_eq_zero.mp hlen) with ⟨h1, _⟩
      exact h1)

theorem load_doc_strokesCell (p : ParsedSvg) (v : JsonVal) (ls : LoadState)
    (h : p.desc = some (.ok v)) :
    (loadFromMarkdown (.doc p) ls).strokesCell = v := by
  obtain ⟨pdesc, pimg⟩ := p
  change pdesc = some (Except.ok v) at h
  subst h
  cases ht : drawAllThrows v with
  | true =>
      have e : loadFromMarkdown (.doc ⟨some (.ok v), pimg⟩) ls
          = { ls with strokesCell := v } := by
        show (if drawAllThrows v = true then ({ ls with strokesCell := v } : LoadState)
          else applyImage pimg { ls with strokesCell := v }) = { ls with strokesCell := v }
        rw [if_pos ht]
      rw [e]
  | false =>
      have e : loadFromMarkdown (.doc ⟨some (.ok v), pimg⟩) ls
          = applyImage pimg { ls with strokesCell := v } := by
        show (if drawAllThrows v = true then ({ ls with strokesCell := v } : LoadState)
          else applyImage pimg { ls with strokesCell := v })
          = applyImage pimg { ls with strokesCell := v }
        rw [if_neg (by rw [ht]; exact Bool.false_ne_true)]
      rw [e, applyImage_strokesCell]

/-- C1: for every drawing state whose committed stroke list is non-empty,
serialization succeeds, the artifact's machine-readable `<desc>` encoding is
exactly the JSON image of the committed strokes, and loading the artifact back
stores that JSON value in the strokes cell, whose typed reading recovers the
stroke list exactly (full precision, no lossy transform). -/
theorem serialize_deserialize_strokes (st : DState) (h : st.strokes ≠ []) :
    ∃ a, generateSvg st = some a ∧ a.desc = strokesToJson st.strokes
      ∧ ∀ ls : LoadState,
          jsonDecodeStrokes ((loadFromMarkdown (.doc (artifactToParsed a)) ls).strokesCell)
            = some st.strokes := by
  rcases generateSvg_isSome st h with ⟨a, ha⟩
  refine ⟨a, ha, generateSvg_desc st a ha, ?_⟩
  intro ls
  rw [load_doc_strokesCell (artifactToParsed a) a.desc ls rfl,
    generateSvg_desc st a ha, jsonDecodeStrokes_strokesToJson]

/-- C1 witness: a state with the single committed stroke `[(0,0),(1,2)]`
serializes and deserializes back to the same stroke list. -/
theorem serialize_deserialize_strokes_witness :
    roundtripState.strokes ≠ []
    ∧ ∃ a, generateSvg roundtripState = some a
      ∧ a.desc = strokesToJson roundtripState.strokes
      ∧ ∀ ls : LoadState,
          jsonDecodeStrokes ((loadFromMarkdown (.doc (artifactToParsed a)) ls).strokesCell)
            = some roundtripState.strokes :=
  ⟨by decide, serialize_deserialize_strokes roundtripState (by decide)⟩

/-- C9 counterexample: an artifact whose `<desc>` text parses as the JSON
object `{}` (a malformed stroke encoding that `JSON.parse` accepts) is
assigned to the strokes cell before the redraw throws, so the drawing state is
not left at its initial empty value. -/
theorem load_malformed_desc_counterexample :
    loadFromMarkdown (.doc { desc := some (.ok (.obj [])), image := none }) initialLoadState
      ≠ initialLoadState := by
  intro h
  have h1 : (loadFromMarkdown (.doc { desc := some (.ok (.obj [])), image := none })
      initialLoadState).strokesCell = .obj [] := rfl
  have h2 := congrArg LoadState.strokesCell h
  rw [h1] at h2
  have h3 : initialLoadState.strokesCell = .arr [] := rfl
  rw [h3] at h2
  exact absurd h2 (by simp)

/-- C9 amended: when the load fails before the stroke encoding is assigned -
no artifact reference, a failing asset read, a desc text on which `JSON.parse`
throws (which also skips the background branch), or markup with neither desc
nor image - the load operation is a total no-op on the drawing state, and no
error propagates (the model is a total function).  When the desc parses as
JSON but is not a stroke-list array, the raw parsed value is stored in the
strokes cell instead (see the counterexample). -/
theorem load_parse_failure_noop (st : LoadState) :
    loadFromMarkdown .noRef st = st
    ∧ loadFromMarkdown .readFailure st = st
    ∧ (∀ img, loadFromMarkdown (.doc { desc := some (.error ()), image := img }) st = st)
    ∧ loadFromMarkdown (.doc { desc := none, image := none }) st = st :=
  ⟨rfl, rfl, fun _ => rfl, rfl⟩

/-! Eraser theorems. -/

theorem strokeHit_iff (p : Point) (rSq : ℚ) (s : Stroke) :
    strokeHit p rSq s = true ↔ hasSegmentWithin p rSq s := by
  unfold strokeHit hasSegmentWithin
  rw [List.any_eq_true]
  constructor
  · rintro ⟨i, hi, hd⟩
    exact ⟨i, by have := List.mem_range.mp hi; omega, of_decide_eq_true hd⟩
  · rintro ⟨i, hi, hd⟩
    exact ⟨i, List.mem_range.mpr (by omega), decide_eq_true hd⟩

/-- C2: a single `eraseAt` call at query point `p` removes exactly the whole
committed strokes having at least one segment at squared distance below
`(ERASER_RADIUS / scale)²` from `p`: the surviving stroke list is a sublist of
the original (whole strokes only, order preserved, no sub-stroke edits), every
stroke with a segment within the radius is gone, and every stroke with all
segments at least the radius away is still present. -/
theorem eraseAt_whole_strokes (st : DState) (p : Point) :
    ((eraseAt st p).strokes.Sublist st.strokes)
    ∧ (∀ s ∈ st.strokes,
        hasSegmentWithin p ((ERASER_RADIUS / st.scale) * (ERASER_RADIUS / st.scale)) s →
          s ∉ (eraseAt st p).strokes)
    ∧ (∀ s ∈ st.strokes,
        ¬ hasSegmentWithin p ((ERASER_RADIUS / st.scale) * (ERASER_RADIUS / st.scale)) s →
          s ∈ (eraseAt st p).strokes) := by
  have hstr : (eraseAt st p).strokes = st.strokes.filter
      (fun stroke => ! strokeHit p ((ERASER_RADIUS / st.scale) * (ERASER_RADIUS / st.scale)) stroke) := rfl
  refine ⟨?_, ?_, ?_⟩
  · rw [hstr]; exact List.filter_sublist _
  · intro s hs hseg hmem
    rw [hstr] at hmem
    have h2 := (List.mem_filter.mp hmem).2
    rw [(strokeHit_iff p _ s).mpr hseg] at h2
    exact absurd h2 (by simp)
  · intro s hs hseg
    rw [hstr]
    refine List.mem_filter.mpr ⟨hs, ?_⟩
    have h2 : strokeHit p ((ERASER_RADIUS / st.scale) * (ERASER_RADIUS / st.scale)) s = false := by
      cases h : strokeHit p ((ERASER_RADIUS / st.scale) * (ERASER_RADIUS / st.scale)) s
      · rfl
      · exact absurd ((strokeHit_iff p _ s).mp h) hseg
    rw [h2]
    rfl

/-- C2 witness: erasing at `(5,0)` with scale 1 removes the stroke
`[(0,0),(10,0)]` (its segment passes through the query point) and keeps the
faraway stroke `[(100,100),(110,100)]`. -/
theorem eraseAt_whole_strokes_witness :
    ((eraseAt eraseState ⟨5, 0⟩).strokes.Sublist eraseState.strokes)
    ∧ [⟨0, 0⟩, ⟨10, 0⟩] ∉ (eraseAt eraseState ⟨5, 0⟩).strokes
    ∧ [⟨100, 100⟩, ⟨110, 100⟩] ∈ (eraseAt eraseState ⟨5, 0⟩).strokes :=
  ⟨(eraseAt_whole_strokes eraseState ⟨5, 0⟩).1,
   (eraseAt_whole_strokes eraseState ⟨5, 0⟩).2.1 [⟨0, 0⟩, ⟨10, 0⟩] (by decide)
     ((strokeHit_iff _ _ _).mp (by
        norm_num [strokeHit, getSqSegDist, pZero, ERASER_RADIUS, eraseState, emptyState,
          List.range, List.range.loop])),
   (eraseAt_whole_strokes eraseState ⟨5, 0⟩).2.2 [⟨100, 100⟩, ⟨110, 100⟩] (by decide)
     (fun hcontra => absurd ((strokeHit_iff _ _ _).mpr hcontra) (by
        norm_num [strokeHit, getSqSegDist, pZero, ERASER_RADIUS, eraseState, emptyState,
          List.range, List.range.loop]))⟩

/-- C10: `eraseAt` never removes a stroke consisting of exactly one point,
even when that point coincides with the query point: the distance test
iterates over consecutive point pairs and a 1-point stroke has none. -/
theorem eraseAt_keeps_single_point (st : DState) (p : Point) (s : Stroke)
    (hs : s ∈ st.strokes) (h1 : s.length = 1) : s ∈ (eraseAt st p).strokes := by
  rcases List.length_eq_one.mp h1 with ⟨a, rfl⟩
  exact List.mem_filter.mpr ⟨hs, rfl⟩

/-- C10 witness: the 1-point stroke at the origin survives erasing exactly at
the origin. -/
theorem eraseAt_keeps_single_point_witness :
    [(⟨0, 0⟩ : Point)] ∈ tapState.strokes ∧ ([(⟨0, 0⟩ : Point)] : Stroke).length = 1
      ∧ [(⟨0, 0⟩ : Point)] ∈ (eraseAt tapState ⟨0, 0⟩).strokes :=
  ⟨by decide, by decide,
   eraseAt_keeps_single_point tapState ⟨0, 0⟩ [⟨0, 0⟩] (by decide) (by decide)⟩

/-! Undo/redo theorems. -/

/-- C5 counterexample: on the state with empty `strokes` and the non-empty
redo buffer `[[(0,0)]]`, `undo()` is a no-op but `redo()` moves a stroke onto
`strokes`, so `undo(); redo()` does not restore the pre-undo stroke list -
the claim fails for this drawing state. -/
theorem undo_redo_counterexample :
    (redo (undo redoOnlyState)).strokes ≠ redoOnlyState.strokes := by decide

/-- C5 amended: `undo()` followed by `redo()` restores the committed stroke
list exactly for every drawing state whose stroke list is non-empty or whose
redo buffer is empty (in particular for every state reached by draw
operations alone, which clear the redo buffer); `undo()` on an empty stroke
list and `redo()` on an empty redo buffer each leave the entire state
unchanged.  (When `strokes` is empty and the redo buffer is not, the pair
instead moves one stroke from the redo buffer onto `strokes` - see the
counterexample.) -/
theorem undo_redo_amended (st : DState) :
    (st.strokes ≠ [] ∨ st.redoStack = [] → (redo (undo st)).strokes = st.strokes)
    ∧ (st.strokes = [] → undo st = st)
    ∧ (st.redoStack = [] → redo st = st) := by
  have hundo_nil : st.strokes = [] → undo st = st := by
    intro h
    unfold undo
    rw [if_pos (by rw [h]; rfl)]
  have hredo_nil : st.redoStack = [] → redo st = st := by
    intro h
    unfold redo
    rw [if_pos (by rw [h]; rfl)]
  refine ⟨?_, hundo_nil, hredo_nil⟩
  intro hor
  by_cases hs : st.strokes = []
  · have hr : st.redoStack = [] := by
      rcases hor with h | h
      · exact absurd hs h
      · exact h
    rw [hundo_nil hs, hredo_nil hr]
  · obtain ⟨y, hy⟩ : ∃ y, st.strokes.getLast? = some y := by
      cases hg : st.strokes.getLast? with
      | none => exact absurd (List.getLast?_eq_none_iff.mp hg) hs
      | some y => exact ⟨y, rfl⟩
    have hu : undo st
        = { st with strokes := st.strokes.dropLast, redoStack := st.redoStack ++ [y] } := by
      unfold undo
      rw [if_neg (by simpa [List.length_eq_zero] using hs), hy]
    have hr2 :
        (redo
          { st with strokes := st.strokes.dropLast, redoStack := st.redoStack ++ [y] }).strokes
          = st.strokes.dropLast ++ [y] := by
      unfold redo
      rw [if_neg (by simp)]
      rw [List.getLast?_concat]
    rw [hu, hr2]
    have hyl : y = st.strokes.getLast hs := by
      have := List.getLast?_eq_getLast st.strokes hs
      rw [hy] at this
      exact Option.some_inj.mp this
    rw [hyl]
    exact List.dropLast_append_getLast hs

/-- C5 witness: the amended statement instantiated at a one-stroke state with
empty redo buffer, and at the empty state for the two no-op clauses. -/
theorem undo_redo_amended_witness :
    (redo (undo oneStrokeState)).strokes = oneStrokeState.strokes
    ∧ undo emptyState = emptyState
    ∧ redo emptyState = emptyState :=
  ⟨(undo_redo_amended oneStrokeState).1 (Or.inl (by decide)),
   (undo_redo_amended emptyState).2.1 rfl,
   (undo_redo_amended emptyState).2.2 rfl⟩

/-! Transform theorems. -/

/-- C6 counterexample: with scale 1, zero offset and the canvas rect at client
position `(10,20)`, the round trip `toScreen(toVirtual(p))` of the device
point `(0,0)` yields `(-10,-20)`, not `p`: `toVirtual` subtracts the canvas
rect's top-left but `toScreen` does not add it back. -/
theorem toScreen_toVirtual_counterexample :
    toScreen 1 ⟨0, 0⟩ (toVirtual ⟨10, 20⟩ 1 ⟨0, 0⟩ 0 0).x (toVirtual ⟨10, 20⟩ 1 ⟨0, 0⟩ 0 0).y
      ≠ (⟨0, 0⟩ : Point) := by
  simp only [toScreen, toVirtual, ne_eq, Point.mk.injEq, not_and]
  intro h
  norm_num at h

/-- C6 amended: for every transform with positive scale and every client-space
device point `p`, `toScreen(toVirtual(p))` equals `p` translated by the
negative of the canvas bounding rect's top-left corner - exactly, in exact
rational arithmetic; in particular it equals `p` exactly when that corner is
the client origin `(0,0)`. -/
theorem toScreen_toVirtual_translate (rect : RectPos) (scale : ℚ) (offset : Point)
    (px py : ℚ) (h : 0 < scale) :
    toScreen scale offset (toVirtual rect scale offset px py).x
        (toVirtual rect scale offset px py).y
      = ⟨px - rect.left, py - rect.top⟩ := by
  have hne : scale ≠ 0 := ne_of_gt h
  simp only [toScreen, toVirtual, Point.mk.injEq]
  constructor
  · rw [div_mul_cancel₀ _ hne]
    ring
  · rw [div_mul_cancel₀ _ hne]
    ring

/-- C6 witness: the amended round trip evaluated at scale 2, offset `(3,4)`,
rect `(10,20)` and device point `(7,8)`. -/
theorem toScreen_toVirtual_translate_witness :
    (0 : ℚ) < 2
    ∧ toScreen 2 ⟨3, 4⟩ (toVirtual ⟨10, 20⟩ 2 ⟨3, 4⟩ 7 8).x (toVirtual ⟨10, 20⟩ 2 ⟨3, 4⟩ 7 8).y
        = ⟨7 - 10, 8 - 20⟩ :=
  ⟨by norm_num, toScreen_toVirtual_translate ⟨10, 20⟩ 2 ⟨3, 4⟩ 7 8 (by norm_num)⟩

/-- C7: a wheel-zoom step at device point `(clientX, clientY)` leaves the
virtual point under that device point unchanged: `toVirtual` computed with the
post-zoom scale and offset agrees with `toVirtual` computed with the pre-zoom
scale and offset, for every state, wheel delta and canvas rect - including
when the new scale is clamped at the bounds `0.1` or `5`. -/
theorem handleWheel_anchors (st : DState) (rect : RectPos) (clientX clientY deltaY : ℚ) :
    toVirtual rect (handleWheel st rect clientX clientY deltaY).scale
        (handleWheel st rect clientX clientY deltaY).offset clientX clientY
      = toVirtual rect st.scale st.offset clientX clientY := by
  have hpos : (0 : ℚ) < min (max (1/10) (st.scale + -(mathSign deltaY) * (1/10))) 5 := by
    have h1 : (1/10 : ℚ) ≤ max (1/10) (st.scale + -(mathSign deltaY) * (1/10)) :=
      le_max_left _ _
    have h2 : (1/10 : ℚ) ≤ min (max (1/10) (st.scale + -(mathSign deltaY) * (1/10))) 5 :=
      le_min h1 (by norm_num)
    linarith
  have hne := ne_of_gt hpos
  simp only [handleWheel, toVirtual, Point.mk.injEq]
  constructor
  · have e : clientX - rect.left
        - ((clientX - rect.left) - (clientX - rect.left - st.offset.x) / st.scale
            * min (max (1/10) (st.scale + -(mathSign deltaY) * (1/10))) 5)
        = (clientX - rect.left - st.offset.x) / st.scale
            * min (max (1/10) (st.scale + -(mathSign deltaY) * (1/10))) 5 := by
      ring
    rw [e, mul_div_cancel_right₀ _ hne]
  · have e : clientY - rect.top
        - ((clientY - rect.top) - (clientY - rect.top - st.offset.y) / st.scale
            * min (max (1/10) (st.scale + -(mathSign deltaY) * (1/10))) 5)
        = (clientY - rect.top - st.offset.y) / st.scale
            * min (max (1/10) (st.scale + -(mathSign deltaY) * (1/10))) 5 := by
      ring
    rw [e, mul_div_cancel_right₀ _ hne]

/-! Commit-path theorems. -/

theorem findFarthest_collinear3 :
    findFarthest [⟨0, 0⟩, ⟨5, 0⟩, ⟨10, 0⟩] ((1/2 : ℚ) * (1/2)) 0 2 = none := by
  norm_num [findFarthest, scanMax, getSqSegDist, pZero, List.range', Prod.ext_iff]

theorem simplify_collinear3 :
    simplify [⟨0, 0⟩, ⟨5, 0⟩, ⟨10, 0⟩] (1/2) = [⟨0, 0⟩, ⟨10, 0⟩] := by
  unfold simplify
  rw [if_neg (by decide)]
  simp only [List.head?_cons]
  rw [show ([⟨0, 0⟩, ⟨5, 0⟩, ⟨10, 0⟩] : List Point).length - 1 = 2 from rfl]
  rw [simplifyDP_eq_none findFarthest_collinear3]
  rfl

theorem smoothStroke_collinear3 :
    smoothStroke [⟨0, 0⟩, ⟨5, 0⟩, ⟨10, 0⟩] = [⟨0, 0⟩, ⟨10, 0⟩] := by
  unfold smoothStroke
  rw [if_neg (by decide)]
  exact simplify_collinear3

/-- C4: committing a pen gesture whose raw point buffer is the 3 collinear
virtual points `(0,0),(5,0),(10,0)` (pencil tool down, not panning) pushes
exactly the simplified 2-point stroke `[(0,0),(10,0)]` onto the committed
stroke list and clears the buffer: `stopDrawing` runs the simplifier
(`smoothStroke`) on the finished stroke before insertion, and simplification
discards the collinear interior point. -/
theorem stopDrawing_collinear_commit (prev redoS : List Stroke) :
    stopDrawing (collinearGestureState prev redoS)
      = { collinearGestureState prev redoS with
          strokes := prev ++ [[⟨0, 0⟩, ⟨10, 0⟩]],
          currentStroke := [], isDrawing := false } := by
  unfold stopDrawing collinearGestureState
  simp only [Bool.not_true, Bool.false_eq_true, if_false, if_true]
  rw [if_pos (by constructor <;> decide)]
  rw [smoothStroke_collinear3]

end Prof2Math
